import Mathlib

/-!
Verification of the cardinality-estimator core (HyperLogLog) and the
Zipfian generator of SILK-USENIXATC2019.

The repository ships only the header `util/hyperloglog.h` for the
estimator: the class declaration, its field list and the documentation
comments, but no method bodies.  The estimator operations are therefore
modelled from the specification (each such definition carries a doc
comment starting `Modelled from the spec:`).  The Zipfian generator
(`util/zipf.cc`) is full source and is embedded directly.

Machine integers are modelled as `Nat`/`Int` with explicit `% 2 ^ 64`
where 64-bit wrapping matters; C `double` arithmetic in the estimator is
modelled over `ℚ` where the spec formulas are rational and over `ℝ`
where they use `ln`; the Zipfian generator's `double` state is modelled
over `ℝ`.
-/

namespace HLL

/-- Modelled from the spec: the Flajolet bias-correction constant
`alpha(m)` for register count `m` (m=16→0.673, m=32→0.697, m=64→0.709,
otherwise 0.7213/(1+1.079/m)).  All of these values are rational, so we
model the `double` computation over `ℚ`. -/
def alphaQ (m : ℕ) : ℚ :=
  if m = 16 then 0.673
  else if m = 32 then 0.697
  else if m = 64 then 0.709
  else 0.7213 / (1 + 1.079 / (m : ℚ))

/-- Modelled from the spec: the precomputed constant
`alpha_num_buckets2 = alpha(m) * m^2`. -/
def alphaNumBuckets2 (m : ℕ) : ℚ := alphaQ m * (m : ℚ) ^ 2

/-- The estimator state, mirroring the field list of class `HyperLogLog`
in `util/hyperloglog.h` (`num_sharding_bits_`, `num_buckets_`,
`bucket_mask_`, `counters_`, `alpha_num_buckets2_`).  The `int8_t`
register values are modelled as `ℕ` (they stay in `[0, 64 - b]`). -/
structure HyperLogLog where
  num_sharding_bits : ℕ
  num_buckets : ℕ
  bucket_mask : ℕ
  counters : List ℕ
  alpha_num_buckets2 : ℚ
deriving DecidableEq, Repr

/-- The only error kind of the spec's error-handling design. -/
inductive Status where
  | InvalidArgument
deriving DecidableEq, Repr

/-- Modelled from the spec: the constructor `HyperLogLog(num_sharding_bits)`
(declared at `util/hyperloglog.h:112`, body absent).  Validates
`num_sharding_bits ∈ [4,16]`, failing with `InvalidArgument` otherwise;
on success computes `num_buckets = 2^b`, `bucket_mask = num_buckets - 1`,
`alpha_num_buckets2 = alpha(m)·m²` and zero-initializes `counters`.
The C++ parameter is an `int`, modelled as `ℤ`. -/
def construct (num_sharding_bits : ℤ) : Except Status HyperLogLog :=
  if 4 ≤ num_sharding_bits ∧ num_sharding_bits ≤ 16 then
    let b := num_sharding_bits.toNat
    Except.ok
      { num_sharding_bits := b
        num_buckets := 2 ^ b
        bucket_mask := 2 ^ b - 1
        counters := List.replicate (2 ^ b) 0
        alpha_num_buckets2 := alphaNumBuckets2 (2 ^ b) }
  else Except.error Status.InvalidArgument

/-- Number of leading zero bits of `n` inside a field of width `w`,
scanning downward from the most significant retained bit (bit `w - 1`). -/
def leadingZeros : ℕ → ℕ → ℕ
  | 0, _ => 0
  | w + 1, n => if n.testBit w then 0 else 1 + leadingZeros w n

/-- Modelled from the spec: the rank of the post-shift hash remainder for
sharding-bit count `b`: `1 +` the number of leading zero bits of
`remaining` in its `64 - b`-bit field, clamped to `64 - b` when
`remaining = 0`. -/
def rank (b remaining : ℕ) : ℕ :=
  if remaining = 0 then 64 - b else 1 + leadingZeros (64 - b) remaining

/-- Modelled from the spec: `AddHash(hash)` (declared at
`util/hyperloglog.h:121`, body absent).  The 64-bit hash is reduced
`% 2^64`; the low `b` bits (`hash & bucket_mask`) select the bucket, the
remaining bits (`hash >> b`) give the rank; the register is raised to the
rank when the rank exceeds it, returning `true` exactly in that case. -/
def AddHash (s : HyperLogLog) (hash : ℕ) : HyperLogLog × Bool :=
  let h := hash % 2 ^ 64
  let bucket := h &&& s.bucket_mask
  let remaining := h >>> s.num_sharding_bits
  let r := rank s.num_sharding_bits remaining
  if r > s.counters.getD bucket 0 then
    ({ s with counters := s.counters.set bucket r }, true)
  else (s, false)

/-- The sum `Σ 2^(-counters[i])` of the estimate formula, over `ℚ`. -/
def rawSum (counters : List ℕ) : ℚ :=
  (counters.map (fun c => ((1 : ℚ) / 2) ^ c)).sum

/-- The raw harmonic-mean estimate `E = alpha_num_buckets2 / Σ 2^(-counters[i])`. -/
def rawE (counters : List ℕ) (alpha2 : ℚ) : ℚ := alpha2 / rawSum counters

/-- The number `V` of zero-valued buckets. -/
def zeroCount (counters : List ℕ) : ℕ := counters.count 0

/-- Modelled from the spec: the real-valued estimate produced by
`Estimate(counters, correct, alpha_num_buckets2)` before integer
rounding.  When `correct` holds, the raw estimate is at most
`2.5 · num_buckets` and some bucket is still zero, the linear-counting
estimate `num_buckets · ln(num_buckets / V)` replaces the raw one. -/
noncomputable def EstimateR (counters : List ℕ) (correct : Bool) (alpha2 : ℚ) : ℝ :=
  let m := counters.length
  if correct = true ∧ rawE counters alpha2 ≤ 5 / 2 * (m : ℚ) ∧ 0 < zeroCount counters then
    (m : ℝ) * Real.log ((m : ℝ) / (zeroCount counters : ℝ))
  else ((rawE counters alpha2 : ℚ) : ℝ)

/-- Modelled from the spec: `Estimate` (declared at
`util/hyperloglog.h:129`, body absent) returns the estimate rounded to an
integer. -/
noncomputable def Estimate (counters : List ℕ) (correct : Bool) (alpha2 : ℚ) : ℤ :=
  round (EstimateR counters correct alpha2)

/-- Modelled from the spec: `Cardinality()` returns the single-interval
estimate list `[Estimate(counters, correct=true, alpha_num_buckets2)]`. -/
noncomputable def Cardinality (s : HyperLogLog) : List ℤ :=
  [Estimate s.counters true s.alpha_num_buckets2]

/-- Elementwise maximum of two counter arrays (the merge step). -/
def mergeCounters (a b : List ℕ) : List ℕ := List.zipWith max a b

/-- Modelled from the spec: `MergedEstimate` (declared at
`util/hyperloglog.h:123`, body absent).  Fails with `InvalidArgument` on
an empty input sequence or when some input's `num_sharding_bits` differs
from the first's; otherwise estimates over the elementwise-maximum merge
of all counter arrays, using the shared `alpha_num_buckets2`. -/
noncomputable def MergedEstimate (hll_vector : List HyperLogLog) : Except Status ℤ :=
  match hll_vector with
  | [] => Except.error Status.InvalidArgument
  | h :: t =>
    if t.all (fun x => x.num_sharding_bits == h.num_sharding_bits) then
      Except.ok (Estimate (t.foldl (fun acc x => mergeCounters acc x.counters) h.counters)
        true h.alpha_num_buckets2)
    else Except.error Status.InvalidArgument

/-- Run a sequence of `AddHash` calls from a starting state, discarding
the returned booleans. -/
def runAdds (s : HyperLogLog) (hashes : List ℕ) : HyperLogLog :=
  hashes.foldl (fun t h => (AddHash t h).1) s

/-- Well-formedness: the field relationships every constructed instance
enjoys and every operation preserves. -/
def WF (s : HyperLogLog) : Prop :=
  4 ≤ s.num_sharding_bits ∧ s.num_sharding_bits ≤ 16 ∧
  s.num_buckets = 2 ^ s.num_sharding_bits ∧
  s.bucket_mask = 2 ^ s.num_sharding_bits - 1 ∧
  s.alpha_num_buckets2 = alphaNumBuckets2 s.num_buckets ∧
  s.counters.length = s.num_buckets ∧
  ∀ c ∈ s.counters, c ≤ 64 - s.num_sharding_bits

instance (s : HyperLogLog) : Decidable (WF s) := by
  unfold WF; infer_instance

/-- A concrete estimator instance with `num_sharding_bits = 4`, as produced
by `construct 4`; used to instantiate the general theorems. -/
def hll4 : HyperLogLog :=
  { num_sharding_bits := 4, num_buckets := 16, bucket_mask := 15,
    counters := List.replicate 16 0, alpha_num_buckets2 := alphaNumBuckets2 16 }

theorem hll4_WF : WF hll4 := by
  refine ⟨?_, ?_, ?_, ?_, ?_, ?_, ?_⟩
  · decide
  · decide
  · decide
  · decide
  · rfl
  · decide
  · decide

theorem mergeCounters_comm (x y : List ℕ) : mergeCounters x y = mergeCounters y x :=
  List.zipWith_comm_of_comm max Nat.max_comm x y

theorem mergeCounters_assoc (x y z : List ℕ) :
    mergeCounters (mergeCounters x y) z = mergeCounters x (mergeCounters y z) := by
  induction x generalizing y z with
  | nil => simp [mergeCounters]
  | cons a x ih =>
    cases y with
    | nil => simp [mergeCounters]
    | cons b y =>
      cases z with
      | nil => simp [mergeCounters]
      | cons c z =>
        simp only [mergeCounters] at ih
        simp only [mergeCounters, List.zipWith_cons_cons]
        rw [ih, Nat.max_assoc]

theorem mergeCounters_idem (x : List ℕ) : mergeCounters x x = x := by
  induction x with
  | nil => rfl
  | cons a x ih =>
    simp only [mergeCounters] at ih
    simp only [mergeCounters, List.zipWith_cons_cons, Nat.max_self]
    rw [ih]

theorem mergeCounters_getD (x y : List ℕ) (hxy : x.length = y.length) (i : ℕ) :
    (mergeCounters x y).getD i 0 = max (x.getD i 0) (y.getD i 0) := by
  induction x generalizing y i with
  | nil =>
    cases y with
    | nil => simp [mergeCounters]
    | cons b y => simp at hxy
  | cons a x ih =>
    cases y with
    | nil => simp at hxy
    | cons b y =>
      cases i with
      | zero => simp [mergeCounters]
      | succ i =>
        simp only [mergeCounters, List.zipWith_cons_cons, List.getD_cons_succ]
        exact ih y (by simpa using hxy) i

theorem mergedEstimate_pair (A B : HyperLogLog)
    (hb : B.num_sharding_bits = A.num_sharding_bits) :
    MergedEstimate [A, B] =
      Except.ok (Estimate (mergeCounters A.counters B.counters) true
        A.alpha_num_buckets2) := by
  simp [MergedEstimate, hb]

theorem mergedEstimate_triple (A B C : HyperLogLog)
    (hb : B.num_sharding_bits = A.num_sharding_bits)
    (hc : C.num_sharding_bits = A.num_sharding_bits) :
    MergedEstimate [A, B, C] =
      Except.ok (Estimate (mergeCounters (mergeCounters A.counters B.counters) C.counters)
        true A.alpha_num_buckets2) := by
  simp [MergedEstimate, hb, hc]

theorem WF_alpha_eq (A B : HyperLogLog) (hwA : WF A) (hwB : WF B)
    (hb : B.num_sharding_bits = A.num_sharding_bits) :
    B.alpha_num_buckets2 = A.alpha_num_buckets2 := by
  obtain ⟨-, -, hnbA, -, halA, -, -⟩ := hwA
  obtain ⟨-, -, hnbB, -, halB, -, -⟩ := hwB
  rw [halA, halB, hnbA, hnbB, hb]

/-- C3: the merge step is the elementwise maximum of the input counter
arrays, and this merge is commutative, associative, and idempotent, so
`MergedEstimate` of two or three instances sharing `num_sharding_bits` is
the same in every order. -/
theorem merge_semilattice (A B C : HyperLogLog) (hwA : WF A) (hwB : WF B) (hwC : WF C)
    (hAB : B.num_sharding_bits = A.num_sharding_bits)
    (hAC : C.num_sharding_bits = A.num_sharding_bits) :
    (∀ i, (mergeCounters A.counters B.counters).getD i 0 =
       max (A.counters.getD i 0) (B.counters.getD i 0)) ∧
    (∀ x y : List ℕ, mergeCounters x y = mergeCounters y x) ∧
    (∀ x y z : List ℕ,
       mergeCounters (mergeCounters x y) z = mergeCounters x (mergeCounters y z)) ∧
    (∀ x : List ℕ, mergeCounters x x = x) ∧
    MergedEstimate [A, B] = MergedEstimate [B, A] ∧
    MergedEstimate [A, B, C] = MergedEstimate [B, A, C] ∧
    MergedEstimate [A, B, C] = MergedEstimate [A, C, B] ∧
    MergedEstimate [A, B, C] = MergedEstimate [B, C, A] ∧
    MergedEstimate [A, B, C] = MergedEstimate [C, A, B] ∧
    MergedEstimate [A, B, C] = MergedEstimate [C, B, A] := by
  have halB := WF_alpha_eq A B hwA hwB hAB
  have halC := WF_alpha_eq A C hwA hwC hAC
  have hBA : A.num_sharding_bits = B.num_sharding_bits := hAB.symm
  have hBC : C.num_sharding_bits = B.num_sharding_bits := hAC.trans hAB.symm
  have hCA : A.num_sharding_bits = C.num_sharding_bits := hAC.symm
  have hCB : B.num_sharding_bits = C.num_sharding_bits := hAB.trans hAC.symm
  have hlen : A.counters.length = B.counters.length := by
    obtain ⟨-, -, hnbA, -, -, hlA, -⟩ := hwA
    obtain ⟨-, -, hnbB, -, -, hlB, -⟩ := hwB
    rw [hlA, hlB, hnbA, hnbB, hAB]
  have hsw : ∀ p q r : List ℕ,
      mergeCounters (mergeCounters p q) r = mergeCounters (mergeCounters p r) q := by
    intro p q r
    rw [mergeCounters_assoc, mergeCounters_comm q r, ← mergeCounters_assoc]
  have hrot : ∀ p q r : List ℕ,
      mergeCounters (mergeCounters p q) r = mergeCounters (mergeCounters q r) p := by
    intro p q r
    rw [mergeCounters_assoc]
    exact mergeCounters_comm _ _
  refine ⟨fun i => mergeCounters_getD _ _ hlen i, mergeCounters_comm,
    mergeCounters_assoc, mergeCounters_idem, ?_, ?_, ?_, ?_, ?_, ?_⟩
  · rw [mergedEstimate_pair A B hAB, mergedEstimate_pair B A hBA,
      mergeCounters_comm, halB]
  · rw [mergedEstimate_triple A B C hAB hAC, mergedEstimate_triple B A C hBA hBC,
      mergeCounters_comm A.counters, halB]
  · rw [mergedEstimate_triple A B C hAB hAC, mergedEstimate_triple A C B hAC hAB,
      hsw A.counters B.counters C.counters]
  · rw [mergedEstimate_triple A B C hAB hAC, mergedEstimate_triple B C A hBC hBA,
      hrot A.counters B.counters C.counters, halB]
  · rw [mergedEstimate_triple A B C hAB hAC, mergedEstimate_triple C A B hCA hCB,
      halC, ← hrot C.counters A.counters B.counters]
  · rw [mergedEstimate_triple A B C hAB hAC, mergedEstimate_triple C B A hCB hCA,
      halC, mergeCounters_comm A.counters B.counters,
      ← hrot C.counters B.counters A.counters]

theorem merge_semilattice_w :
    WF hll4 ∧
    (MergedEstimate [hll4, hll4] = MergedEstimate [hll4, hll4] ∧
     MergedEstimate [hll4, hll4, hll4] = MergedEstimate [hll4, hll4, hll4]) := by
  have h := merge_semilattice hll4 hll4 hll4 hll4_WF hll4_WF hll4_WF rfl rfl
  exact ⟨hll4_WF, h.2.2.2.2.1, h.2.2.2.2.2.1⟩

/-- C5: `MergedEstimate` fails with `InvalidArgument` on an empty input
sequence and whenever two inputs have differing `num_sharding_bits`; when
all inputs agree it returns the integer `Estimate` of the merged counters,
using the `alpha_num_buckets2` constant shared by all (well-formed)
inputs. -/
theorem mergedEstimate_validates :
    MergedEstimate [] = Except.error Status.InvalidArgument ∧
    (∀ hs : List HyperLogLog,
       (∃ x ∈ hs, ∃ y ∈ hs, x.num_sharding_bits ≠ y.num_sharding_bits) →
       MergedEstimate hs = Except.error Status.InvalidArgument) ∧
    (∀ h t, (∀ x ∈ t, x.num_sharding_bits = h.num_sharding_bits) →
       MergedEstimate (h :: t) = Except.ok (Estimate
         (t.foldl (fun acc x => mergeCounters acc x.counters) h.counters) true
         h.alpha_num_buckets2)) ∧
    (∀ h t, WF h → (∀ x ∈ t, WF x ∧ x.num_sharding_bits = h.num_sharding_bits) →
       ∀ x ∈ h :: t, x.alpha_num_buckets2 = h.alpha_num_buckets2) := by
  refine ⟨rfl, ?_, ?_, ?_⟩
  · rintro hs ⟨x, hx, y, hy, hxy⟩
    cases hs with
    | nil => simp at hx
    | cons h t =>
      have hnall : ¬(t.all (fun z => z.num_sharding_bits == h.num_sharding_bits) = true) := by
        intro hall
        rw [List.all_eq_true] at hall
        have hhead : ∀ z ∈ h :: t, z.num_sharding_bits = h.num_sharding_bits := by
          intro z hz
          rcases List.mem_cons.1 hz with hzh | hzt
          · rw [hzh]
          · exact beq_iff_eq.1 (hall z hzt)
        exact hxy ((hhead x hx).trans (hhead y hy).symm)
      simp only [MergedEstimate]
      rw [if_neg hnall]
  · intro h t hall
    simp only [MergedEstimate]
    rw [if_pos]
    rw [List.all_eq_true]
    intro z hz
    exact beq_iff_eq.2 (hall z hz)
  · intro h t hwh hall x hx
    rcases List.mem_cons.1 hx with hxh | hxt
    · rw [hxh]
    · exact WF_alpha_eq h x hwh (hall x hxt).1 (hall x hxt).2

theorem mergedEstimate_validates_w :
    (∀ x ∈ [hll4], x.num_sharding_bits = hll4.num_sharding_bits) ∧
    MergedEstimate [hll4, hll4] = Except.ok (Estimate
      ([hll4].foldl (fun acc x => mergeCounters acc x.counters) hll4.counters) true
      hll4.alpha_num_buckets2) :=
  ⟨by simp, mergedEstimate_validates.2.2.1 hll4 [hll4] (by simp)⟩

theorem alphaQ_nonneg (m : ℕ) : 0 ≤ alphaQ m := by
  unfold alphaQ
  split_ifs <;> try norm_num
  have h1 : (0 : ℚ) ≤ 1.079 / (m : ℚ) := div_nonneg (by norm_num) (Nat.cast_nonneg m)
  exact div_nonneg (by norm_num) (by linarith)

theorem alphaQ_le (m : ℕ) : alphaQ m ≤ 5 / 2 := by
  unfold alphaQ
  split_ifs <;> try norm_num
  have h1 : (0 : ℚ) ≤ 1.079 / (m : ℚ) := div_nonneg (by norm_num) (Nat.cast_nonneg m)
  have h2 : (0.7213 : ℚ) / (1 + 1.079 / (m : ℚ)) ≤ 0.7213 :=
    div_le_self (by norm_num) (by linarith)
  linarith

theorem alphaNumBuckets2_nonneg (m : ℕ) : 0 ≤ alphaNumBuckets2 m :=
  mul_nonneg (alphaQ_nonneg m) (sq_nonneg _)

theorem rawSum_nonneg (counters : List ℕ) : 0 ≤ rawSum counters := by
  induction counters with
  | nil => simp [rawSum]
  | cons a t ih =>
    simp only [rawSum, List.map_cons, List.sum_cons] at ih ⊢
    have : (0 : ℚ) ≤ ((1 : ℚ) / 2) ^ a := by positivity
    linarith

theorem rawSum_eq_finset (counters : List ℕ) :
    ((rawSum counters : ℚ) : ℝ) =
      ∑ i ∈ Finset.range counters.length, (2 : ℝ) ^ (-(counters.getD i 0 : ℤ)) := by
  induction counters with
  | nil => simp [rawSum]
  | cons a t ih =>
    have hterm : ∀ c : ℕ, (2 : ℝ) ^ (-(c : ℤ)) = (((1 : ℚ) / 2 : ℚ) ^ c : ℝ) := by
      intro c
      rw [zpow_neg, zpow_natCast]
      push_cast
      rw [one_div, inv_pow]
    simp only [rawSum, List.map_cons, List.sum_cons, List.length_cons]
    push_cast
    rw [Finset.sum_range_succ']
    simp only [List.getD_cons_succ, List.getD_cons_zero]
    have ihx : (∑ i ∈ Finset.range t.length, (2:ℝ) ^ (-(t.getD i 0 : ℤ))) =
        ((rawSum t : ℚ) : ℝ) := ih.symm
    rw [ihx, hterm a]
    simp only [rawSum]
    push_cast
    ring

/-- C1: `Estimate` returns, rounded to an integer, the raw harmonic-mean
estimate `E = alpha_num_buckets2 / Σ 2^(-counters[i])` — except that when
`correct` holds, `E ≤ 2.5 · num_buckets` and the count `V` of zero buckets
is positive, it returns the linear-counting estimate
`num_buckets · ln(num_buckets / V)` instead — and the result is never
negative. -/
theorem estimate_formula (counters : List ℕ) (correct : Bool) (b : ℕ)
    (hb4 : 4 ≤ b) (hb16 : b ≤ 16) (hlen : counters.length = 2 ^ b)
    (hrange : ∀ c ∈ counters, c ≤ 64 - b) :
    Estimate counters correct (alphaNumBuckets2 (2 ^ b)) =
      round (EstimateR counters correct (alphaNumBuckets2 (2 ^ b))) ∧
    EstimateR counters correct (alphaNumBuckets2 (2 ^ b)) =
      (if correct = true ∧
          ((alphaNumBuckets2 (2 ^ b) : ℚ) : ℝ) /
            (∑ i ∈ Finset.range counters.length, (2 : ℝ) ^ (-(counters.getD i 0 : ℤ))) ≤
            5 / 2 * (counters.length : ℝ) ∧ 0 < zeroCount counters
       then (counters.length : ℝ) *
         Real.log ((counters.length : ℝ) / (zeroCount counters : ℝ))
       else ((alphaNumBuckets2 (2 ^ b) : ℚ) : ℝ) /
         (∑ i ∈ Finset.range counters.length, (2 : ℝ) ^ (-(counters.getD i 0 : ℤ)))) ∧
    0 ≤ Estimate counters correct (alphaNumBuckets2 (2 ^ b)) := by
  have hS : ((rawSum counters : ℚ) : ℝ) =
      ∑ i ∈ Finset.range counters.length, (2 : ℝ) ^ (-(counters.getD i 0 : ℤ)) :=
    rawSum_eq_finset counters
  have hcastE : ((rawE counters (alphaNumBuckets2 (2 ^ b)) : ℚ) : ℝ) =
      ((alphaNumBuckets2 (2 ^ b) : ℚ) : ℝ) /
        (∑ i ∈ Finset.range counters.length, (2 : ℝ) ^ (-(counters.getD i 0 : ℤ))) := by
    rw [← hS, rawE, Rat.cast_div]
  have hiff : (rawE counters (alphaNumBuckets2 (2 ^ b)) ≤
      5 / 2 * (counters.length : ℚ)) ↔
      ((alphaNumBuckets2 (2 ^ b) : ℚ) : ℝ) /
        (∑ i ∈ Finset.range counters.length, (2 : ℝ) ^ (-(counters.getD i 0 : ℤ))) ≤
        5 / 2 * (counters.length : ℝ) := by
    rw [← hcastE]
    constructor
    · intro h
      have : ((rawE counters (alphaNumBuckets2 (2 ^ b)) : ℚ) : ℝ) ≤
          ((5 / 2 * (counters.length : ℚ) : ℚ) : ℝ) := by exact_mod_cast h
      calc ((rawE counters (alphaNumBuckets2 (2 ^ b)) : ℚ) : ℝ) ≤
          ((5 / 2 * (counters.length : ℚ) : ℚ) : ℝ) := this
        _ = 5 / 2 * (counters.length : ℝ) := by push_cast; ring
    · intro h
      have h2 : ((rawE counters (alphaNumBuckets2 (2 ^ b)) : ℚ) : ℝ) ≤
          ((5 / 2 * (counters.length : ℚ) : ℚ) : ℝ) := by
        calc ((rawE counters (alphaNumBuckets2 (2 ^ b)) : ℚ) : ℝ) ≤
            5 / 2 * (counters.length : ℝ) := h
          _ = ((5 / 2 * (counters.length : ℚ) : ℚ) : ℝ) := by push_cast; ring
      exact_mod_cast h2
  have hEr : EstimateR counters correct (alphaNumBuckets2 (2 ^ b)) =
      (if correct = true ∧
          ((alphaNumBuckets2 (2 ^ b) : ℚ) : ℝ) /
            (∑ i ∈ Finset.range counters.length, (2 : ℝ) ^ (-(counters.getD i 0 : ℤ))) ≤
            5 / 2 * (counters.length : ℝ) ∧ 0 < zeroCount counters
       then (counters.length : ℝ) *
         Real.log ((counters.length : ℝ) / (zeroCount counters : ℝ))
       else ((alphaNumBuckets2 (2 ^ b) : ℚ) : ℝ) /
         (∑ i ∈ Finset.range counters.length, (2 : ℝ) ^ (-(counters.getD i 0 : ℤ)))) := by
    simp only [EstimateR]
    rw [if_congr (and_congr_right fun _ => and_congr_left fun _ => hiff) rfl hcastE]
  have hnn : 0 ≤ EstimateR counters correct (alphaNumBuckets2 (2 ^ b)) := by
    simp only [EstimateR]
    split
    · next hcond =>
      apply mul_nonneg (Nat.cast_nonneg _)
      apply Real.log_nonneg
      have hVpos : (0 : ℝ) < (zeroCount counters : ℝ) := by
        exact_mod_cast hcond.2.2
      rw [le_div_iff₀ hVpos, one_mul]
      have hcl : zeroCount counters ≤ counters.length := by
        unfold zeroCount
        apply List.count_le_length
      exact_mod_cast hcl
    · exact Rat.cast_nonneg.2 (div_nonneg (alphaNumBuckets2_nonneg _) (rawSum_nonneg _))
  refine ⟨rfl, hEr, ?_⟩
  show (0 : ℤ) ≤ round (EstimateR counters correct (alphaNumBuckets2 (2 ^ b)))
  rw [round_eq]
  exact Int.floor_nonneg.2 (by linarith)

theorem estimate_formula_w :
    (List.replicate 16 0).length = 2 ^ 4 ∧
    0 ≤ Estimate (List.replicate 16 0) true (alphaNumBuckets2 (2 ^ 4)) :=
  ⟨by decide, (estimate_formula (List.replicate 16 0) true 4 (by decide) (by decide)
      (by decide) (by decide)).2.2⟩

theorem estimate_fresh (m : ℕ) (hm : 0 < m) :
    Estimate (List.replicate m 0) true (alphaNumBuckets2 m) = 0 := by
  have hsum : rawSum (List.replicate m 0) = (m : ℚ) := by
    simp [rawSum, List.map_replicate, List.sum_replicate]
  have hzc : zeroCount (List.replicate m 0) = m := by
    simp [zeroCount, List.count_replicate_self]
  have hmq : (0 : ℚ) < (m : ℚ) := by exact_mod_cast hm
  have hcond : rawE (List.replicate m 0) (alphaNumBuckets2 m) ≤
      5 / 2 * (((List.replicate m 0).length : ℕ) : ℚ) := by
    rw [rawE, hsum, List.length_replicate, div_le_iff₀ hmq]
    have h1 : alphaQ m * (m : ℚ) ^ 2 ≤ 5 / 2 * (m : ℚ) ^ 2 :=
      mul_le_mul_of_nonneg_right (alphaQ_le m) (sq_nonneg _)
    calc alphaNumBuckets2 m = alphaQ m * (m : ℚ) ^ 2 := rfl
      _ ≤ 5 / 2 * (m : ℚ) ^ 2 := h1
      _ = 5 / 2 * (m : ℚ) * (m : ℚ) := by ring
  have hEr : EstimateR (List.replicate m 0) true (alphaNumBuckets2 m) = 0 := by
    simp only [EstimateR]
    rw [if_pos ⟨trivial, hcond, by rw [hzc]; exact hm⟩]
    rw [hzc, List.length_replicate]
    rw [div_self (by exact_mod_cast hm.ne'), Real.log_one, mul_zero]
  rw [Estimate, hEr, round_zero]

/-- C8: on a freshly constructed estimator with no `AddHash` calls,
`Cardinality()` returns `[0]`: all buckets are 0, so linear counting gives
`num_buckets · ln(num_buckets / num_buckets) = 0`. -/
theorem cardinality_empty (b : ℤ) (s : HyperLogLog) (h4 : 4 ≤ b) (h16 : b ≤ 16)
    (hok : construct b = Except.ok s) : Cardinality s = [0] := by
  unfold construct at hok
  rw [if_pos ⟨h4, h16⟩] at hok
  injection hok with h2
  subst h2
  show [Estimate (List.replicate (2 ^ b.toNat) 0) true (alphaNumBuckets2 (2 ^ b.toNat))] = [0]
  rw [estimate_fresh (2 ^ b.toNat) (Nat.pos_pow_of_pos _ (by norm_num))]

theorem cardinality_empty_w :
    (4 : ℤ) ≤ 4 ∧ construct 4 = Except.ok hll4 ∧ Cardinality hll4 = [0] :=
  ⟨by norm_num, rfl, cardinality_empty 4 hll4 (by norm_num) (by norm_num) rfl⟩

end HLL

namespace Zipf

/-- The process-wide mutable globals of `util/zipf.cc` (lines 14-23),
gathered into one state record.  C `long` is modelled as `ℤ`, C `double`
as `ℝ`. -/
structure ZipfState where
  items : ℤ
  base : ℤ
  zipfianconstant : ℝ
  alpha : ℝ
  zetan : ℝ
  eta : ℝ
  theta : ℝ
  zeta2theta : ℝ
  countforzeta : ℤ
  lastVal : ℤ

/-- `zetastatic(st, n, initialsum)` (`util/zipf.cc:46-52`): adds
`1 / (i+1)^theta` for `i` from `st` to `n - 1` onto `initialsum`.  It
reads the global `theta`, so it takes the state (read-only). -/
noncomputable def zetastatic (s : ZipfState) (st n : ℤ) (initialsum : ℝ) : ℝ :=
  initialsum + ∑ i ∈ Finset.Ico st n, 1 / ((i : ℝ) + 1) ^ s.theta

/-- `zeta(st, n, initialsum)` (`util/zipf.cc:40-43`): assigns
`countforzeta = n`, then returns `zetastatic(st, n, initialsum)`. -/
noncomputable def zeta (s : ZipfState) (st n : ℤ) (initialsum : ℝ) :
    ZipfState × ℝ :=
  ({ s with countforzeta := n }, zetastatic s st n initialsum)

/-- `setLastValue(val)` (`util/zipf.cc:83-85`). -/
def setLastValue (s : ZipfState) (val : ℤ) : ZipfState :=
  { s with lastVal := val }

/-- The pre-draw phase of `nextLong` (`util/zipf.cc:56-63`): when
`itemcount != countforzeta` and `itemcount > countforzeta`, a console
warning is printed (modelled by the returned `Bool`), `zetan` is
recomputed incrementally via `zeta(countforzeta, itemcount, zetan)` (which
also sets `countforzeta = itemcount`) and `eta` is recomputed from the new
`zetan`; otherwise the state is untouched. -/
noncomputable def nextLongPre (s : ZipfState) (itemcount : ℤ) : ZipfState × Bool :=
  if itemcount ≠ s.countforzeta then
    if itemcount > s.countforzeta then
      let p := zeta s s.countforzeta itemcount s.zetan
      let s1 := { p.1 with zetan := p.2 }
      let s2 := { s1 with
        eta := (1 - (2 / (s1.items : ℝ)) ^ ((1 : ℝ) - s1.theta)) /
          (1 - s1.zeta2theta / s1.zetan) }
      (s2, true)
    else (s, false)
  else (s, false)

/-- C's `(long)` cast of a `double`: truncation toward zero. -/
noncomputable def truncToZero (x : ℝ) : ℤ :=
  if 0 ≤ x then ⌊x⌋ else -⌊-x⌋

/-- `nextLong(itemcount)` (`util/zipf.cc:54-77`).  The library call
`rand() / RAND_MAX` is modelled by the parameter `u`; the function returns
the final state, whether the incremental-recompute warning was printed,
and the drawn value.  After the pre-draw phase: with `uz = u * zetan`,
return `base` when `uz < 1`, `base + 1` when `uz < 1 + 0.5^theta`, and
otherwise `base + (long)(itemcount * (eta*u - eta + 1)^alpha)` after
`setLastValue` records it. -/
noncomputable def nextLong (s : ZipfState) (itemcount : ℤ) (u : ℝ) :
    ZipfState × Bool × ℤ :=
  let p := nextLongPre s itemcount
  let s1 := p.1
  let uz := u * s1.zetan
  if uz < 1 then (s1, p.2, s1.base)
  else if uz < 1 + ((0.5 : ℝ)) ^ s1.theta then (s1, p.2, s1.base + 1)
  else
    let ret := s1.base + truncToZero ((itemcount : ℝ) * (s1.eta * u - s1.eta + 1) ^ s1.alpha)
    (setLastValue s1 ret, p.2, ret)

/-- A concrete generator state (all globals zero), used to instantiate the
general theorems. -/
def zs0 : ZipfState :=
  { items := 0, base := 0, zipfianconstant := 0, alpha := 0, zetan := 0,
    eta := 0, theta := 0, zeta2theta := 0, countforzeta := 0, lastVal := 0 }

theorem nextLongPre_frame (s : ZipfState) (itemcount : ℤ) :
    (nextLongPre s itemcount).1.items = s.items ∧
    (nextLongPre s itemcount).1.base = s.base ∧
    (nextLongPre s itemcount).1.zipfianconstant = s.zipfianconstant ∧
    (nextLongPre s itemcount).1.alpha = s.alpha ∧
    (nextLongPre s itemcount).1.theta = s.theta ∧
    (nextLongPre s itemcount).1.zeta2theta = s.zeta2theta ∧
    (nextLongPre s itemcount).1.lastVal = s.lastVal := by
  unfold nextLongPre zeta
  split_ifs <;> exact ⟨rfl, rfl, rfl, rfl, rfl, rfl, rfl⟩

theorem nextLong_eq (s : ZipfState) (itemcount : ℤ) (u : ℝ) :
    nextLong s itemcount u =
      if u * (nextLongPre s itemcount).1.zetan < 1 then
        ((nextLongPre s itemcount).1, (nextLongPre s itemcount).2,
          (nextLongPre s itemcount).1.base)
      else if u * (nextLongPre s itemcount).1.zetan <
          1 + ((0.5 : ℝ)) ^ (nextLongPre s itemcount).1.theta then
        ((nextLongPre s itemcount).1, (nextLongPre s itemcount).2,
          (nextLongPre s itemcount).1.base + 1)
      else
        (setLastValue (nextLongPre s itemcount).1
           ((nextLongPre s itemcount).1.base + truncToZero ((itemcount : ℝ) *
             ((nextLongPre s itemcount).1.eta * u - (nextLongPre s itemcount).1.eta + 1) ^
               (nextLongPre s itemcount).1.alpha)),
         (nextLongPre s itemcount).2,
         (nextLongPre s itemcount).1.base + truncToZero ((itemcount : ℝ) *
           ((nextLongPre s itemcount).1.eta * u - (nextLongPre s itemcount).1.eta + 1) ^
             (nextLongPre s itemcount).1.alpha)) := rfl

/-- C9: the pre-draw phase of `nextLong(itemcount)`: when
`itemcount > countforzeta`, the console warning is emitted and `zetan` is
recomputed incrementally as `zeta(countforzeta, itemcount, zetan)` (which
also sets `countforzeta = itemcount`), with `eta` recomputed from the new
`zetan`; when `itemcount ≤ countforzeta`, the state — in particular
`zetan`, `eta` and `countforzeta` — is unchanged before the random draw
and no warning is emitted. -/
theorem nextLongPre_spec (s : ZipfState) (itemcount : ℤ) :
    (s.countforzeta < itemcount →
       nextLongPre s itemcount =
         ({ s with zetan := zetastatic s s.countforzeta itemcount s.zetan,
                   countforzeta := itemcount,
                   eta := (1 - (2 / (s.items : ℝ)) ^ ((1 : ℝ) - s.theta)) /
                     (1 - s.zeta2theta / zetastatic s s.countforzeta itemcount s.zetan) },
          true)) ∧
    (itemcount ≤ s.countforzeta → nextLongPre s itemcount = (s, false)) := by
  constructor
  · intro h
    unfold nextLongPre zeta
    rw [if_pos (show itemcount ≠ s.countforzeta by omega),
      if_pos (show itemcount > s.countforzeta from h)]
  · intro h
    unfold nextLongPre
    by_cases he : itemcount = s.countforzeta
    · rw [if_neg (by omega : ¬itemcount ≠ s.countforzeta)]
    · rw [if_pos he, if_neg (by omega : ¬itemcount > s.countforzeta)]

theorem nextLongPre_spec_w :
    zs0.countforzeta < 1 ∧
    nextLongPre zs0 1 =
      ({ zs0 with zetan := zetastatic zs0 zs0.countforzeta 1 zs0.zetan,
                  countforzeta := 1,
                  eta := (1 - (2 / (zs0.items : ℝ)) ^ ((1 : ℝ) - zs0.theta)) /
                    (1 - zs0.zeta2theta / zetastatic zs0 zs0.countforzeta 1 zs0.zetan) },
       true) :=
  ⟨by decide, (nextLongPre_spec zs0 1).1 (by decide)⟩

/-- C10: `nextLong` calls `setLastValue` only on its general (third)
branch.  On the first branch (`uz < 1`, returning `base`) and the second
branch (`uz < 1 + 0.5^theta`, returning `base + 1`), `lastVal` keeps its
previous value and every global except possibly
`zetan`/`eta`/`countforzeta` is unchanged; only on the general branch is
`lastVal` set, to the returned value. -/
theorem nextLong_frame (s : ZipfState) (itemcount : ℤ) (u : ℝ) :
    (u * (nextLongPre s itemcount).1.zetan < 1 →
       (nextLong s itemcount u).2.2 = s.base ∧
       (nextLong s itemcount u).1.lastVal = s.lastVal ∧
       (nextLong s itemcount u).1.items = s.items ∧
       (nextLong s itemcount u).1.base = s.base ∧
       (nextLong s itemcount u).1.zipfianconstant = s.zipfianconstant ∧
       (nextLong s itemcount u).1.alpha = s.alpha ∧
       (nextLong s itemcount u).1.theta = s.theta ∧
       (nextLong s itemcount u).1.zeta2theta = s.zeta2theta) ∧
    (¬(u * (nextLongPre s itemcount).1.zetan < 1) →
     u * (nextLongPre s itemcount).1.zetan <
        1 + ((0.5 : ℝ)) ^ (nextLongPre s itemcount).1.theta →
       (nextLong s itemcount u).2.2 = s.base + 1 ∧
       (nextLong s itemcount u).1.lastVal = s.lastVal ∧
       (nextLong s itemcount u).1.items = s.items ∧
       (nextLong s itemcount u).1.base = s.base ∧
       (nextLong s itemcount u).1.zipfianconstant = s.zipfianconstant ∧
       (nextLong s itemcount u).1.alpha = s.alpha ∧
       (nextLong s itemcount u).1.theta = s.theta ∧
       (nextLong s itemcount u).1.zeta2theta = s.zeta2theta) ∧
    (¬(u * (nextLongPre s itemcount).1.zetan < 1) →
     ¬(u * (nextLongPre s itemcount).1.zetan <
        1 + ((0.5 : ℝ)) ^ (nextLongPre s itemcount).1.theta) →
       (nextLong s itemcount u).1 =
         setLastValue (nextLongPre s itemcount).1 (nextLong s itemcount u).2.2 ∧
       (nextLong s itemcount u).1.lastVal = (nextLong s itemcount u).2.2) := by
  obtain ⟨hit, hba, hzc, hal, hth, hz2, hlv⟩ := nextLongPre_frame s itemcount
  refine ⟨?_, ?_, ?_⟩
  · intro h1
    rw [nextLong_eq, if_pos h1]
    exact ⟨hba, hlv, hit, hba, hzc, hal, hth, hz2⟩
  · intro h1 h2
    rw [nextLong_eq, if_neg h1, if_pos h2]
    exact ⟨by rw [hba], hlv, hit, hba, hzc, hal, hth, hz2⟩
  · intro h1 h2
    rw [nextLong_eq, if_neg h1, if_neg h2]
    exact ⟨rfl, rfl⟩

theorem nextLong_frame_w :
    (0 : ℝ) * (nextLongPre zs0 0).1.zetan < 1 ∧
    ((nextLong zs0 0 0).2.2 = zs0.base ∧ (nextLong zs0 0 0).1.lastVal = zs0.lastVal) := by
  have h1 : (0 : ℝ) * (nextLongPre zs0 0).1.zetan < 1 := by
    rw [zero_mul]
    norm_num
  have h := (nextLong_frame zs0 0 0).1 h1
  exact ⟨h1, h.1, h.2.1⟩

end Zipf

namespace HLL

theorem getD_set_eq (l : List ℕ) (i j a : ℕ) :
    (l.set i a).getD j 0 = if i = j ∧ i < l.length then a else l.getD j 0 := by
  simp only [List.getD_eq_getElem?_getD, List.getElem?_set]
  by_cases hij : i = j
  · subst hij
    by_cases hlt : i < l.length
    · simp [hlt]
    · simp only [if_pos rfl, if_neg hlt, hlt, and_false, if_false, Option.getD_none]
      rw [List.getElem?_eq_none (by omega)]
      rfl
  · simp [hij]

theorem AddHash_eq (s : HyperLogLog) (hash : ℕ) :
    AddHash s hash =
      if rank s.num_sharding_bits ((hash % 2 ^ 64) >>> s.num_sharding_bits) >
          s.counters.getD ((hash % 2 ^ 64) &&& s.bucket_mask) 0
      then ({ s with counters := (s.counters.set ((hash % 2 ^ 64) &&& s.bucket_mask)
               (rank s.num_sharding_bits ((hash % 2 ^ 64) >>> s.num_sharding_bits))) }, true)
      else (s, false) := rfl

theorem AddHash_frame (s : HyperLogLog) (hash : ℕ) :
    (AddHash s hash).1.num_sharding_bits = s.num_sharding_bits ∧
    (AddHash s hash).1.num_buckets = s.num_buckets ∧
    (AddHash s hash).1.bucket_mask = s.bucket_mask ∧
    (AddHash s hash).1.alpha_num_buckets2 = s.alpha_num_buckets2 ∧
    (AddHash s hash).1.counters.length = s.counters.length := by
  rw [AddHash_eq]
  split <;> simp

/-- C4: construction fails with `InvalidArgument` exactly when
`num_sharding_bits` lies outside `[4, 16]`; on success `num_buckets = 2^b`,
`bucket_mask = num_buckets - 1`, and every counter starts at 0. -/
theorem construct_validates (b : ℤ) :
    (construct b = Except.error Status.InvalidArgument ↔ (b < 4 ∨ 16 < b)) ∧
    (4 ≤ b → b ≤ 16 → ∃ s, construct b = Except.ok s ∧
      s.num_buckets = 2 ^ b.toNat ∧ s.bucket_mask = s.num_buckets - 1 ∧
      s.counters = List.replicate s.num_buckets 0) := by
  constructor
  · constructor
    · intro h
      by_contra hb
      push_neg at hb
      have hc : 4 ≤ b ∧ b ≤ 16 := ⟨hb.1, hb.2⟩
      unfold construct at h
      rw [if_pos hc] at h
      exact absurd h (by simp)
    · intro h
      have hc : ¬(4 ≤ b ∧ b ≤ 16) := by omega
      unfold construct
      rw [if_neg hc]
  · intro h4 h16
    refine ⟨{ num_sharding_bits := b.toNat, num_buckets := 2 ^ b.toNat,
              bucket_mask := 2 ^ b.toNat - 1,
              counters := List.replicate (2 ^ b.toNat) 0,
              alpha_num_buckets2 := alphaNumBuckets2 (2 ^ b.toNat) }, ?_, rfl, rfl, rfl⟩
    unfold construct
    rw [if_pos ⟨h4, h16⟩]

theorem construct_validates_w :
    (4 : ℤ) ≤ 4 ∧ (4 : ℤ) ≤ 16 ∧
    ∃ s, construct 4 = Except.ok s ∧ s.num_buckets = 2 ^ (4 : ℤ).toNat ∧
      s.bucket_mask = s.num_buckets - 1 ∧
      s.counters = List.replicate s.num_buckets 0 :=
  ⟨by norm_num, by norm_num, (construct_validates 4).2 (by norm_num) (by norm_num)⟩

/-- C2: `AddHash` selects `bucket = hash & bucket_mask` (the low `b` bits,
i.e. `hash % 2^b`), takes `remaining = hash >> b` (i.e. `hash / 2^b`),
computes `rank = 1 +` the number of leading zero bits of `remaining`
scanning from its most significant retained bit (clamped to `64 - b` when
`remaining = 0`), raises `counters[bucket]` to `rank` and returns `true`
exactly when `rank > counters[bucket]`, and otherwise leaves the state
unchanged and returns `false`. -/
theorem addHash_extraction (s : HyperLogLog) (h : ℕ) (hh : h < 2 ^ 64)
    (hmask : s.bucket_mask = 2 ^ s.num_sharding_bits - 1) :
    AddHash s h =
      (if rank s.num_sharding_bits (h / 2 ^ s.num_sharding_bits) >
          s.counters.getD (h % 2 ^ s.num_sharding_bits) 0
       then ({ s with counters := (s.counters.set (h % 2 ^ s.num_sharding_bits)
                 (rank s.num_sharding_bits (h / 2 ^ s.num_sharding_bits))) }, true)
       else (s, false)) ∧
    rank s.num_sharding_bits (h / 2 ^ s.num_sharding_bits) =
      (if h / 2 ^ s.num_sharding_bits = 0 then 64 - s.num_sharding_bits
       else 1 + leadingZeros (64 - s.num_sharding_bits) (h / 2 ^ s.num_sharding_bits)) ∧
    ((AddHash s h).2 = true ↔ rank s.num_sharding_bits (h / 2 ^ s.num_sharding_bits) >
       s.counters.getD (h % 2 ^ s.num_sharding_bits) 0) := by
  have hb : (h % 2 ^ 64) &&& s.bucket_mask = h % 2 ^ s.num_sharding_bits := by
    rw [Nat.mod_eq_of_lt hh, hmask, Nat.and_pow_two_sub_one_eq_mod]
  have hr : (h % 2 ^ 64) >>> s.num_sharding_bits = h / 2 ^ s.num_sharding_bits := by
    rw [Nat.mod_eq_of_lt hh, Nat.shiftRight_eq_div_pow]
  have hAdd : AddHash s h =
      (if rank s.num_sharding_bits (h / 2 ^ s.num_sharding_bits) >
          s.counters.getD (h % 2 ^ s.num_sharding_bits) 0
       then ({ s with counters := (s.counters.set (h % 2 ^ s.num_sharding_bits)
                 (rank s.num_sharding_bits (h / 2 ^ s.num_sharding_bits))) }, true)
       else (s, false)) := by
    rw [AddHash_eq, hb, hr]
  refine ⟨hAdd, rfl, ?_⟩
  rw [hAdd]
  split
  · next hc => simpa using hc
  · next hc => simpa using hc

theorem addHash_extraction_w :
    (12345 : ℕ) < 2 ^ 64 ∧
    AddHash hll4 12345 =
      (if rank hll4.num_sharding_bits (12345 / 2 ^ hll4.num_sharding_bits) >
          hll4.counters.getD (12345 % 2 ^ hll4.num_sharding_bits) 0
       then ({ hll4 with counters := (hll4.counters.set (12345 % 2 ^ hll4.num_sharding_bits)
                 (rank hll4.num_sharding_bits (12345 / 2 ^ hll4.num_sharding_bits))) }, true)
       else (hll4, false)) :=
  ⟨by norm_num, (addHash_extraction hll4 12345 (by norm_num) rfl).1⟩

/-- C7: calling `AddHash` twice with the same hash yields the same
counters as calling it once, and the second call returns `false`. -/
theorem addHash_idem (s : HyperLogLog) (h : ℕ)
    (hlen : s.counters.length = 2 ^ s.num_sharding_bits)
    (hmask : s.bucket_mask = 2 ^ s.num_sharding_bits - 1) :
    AddHash (AddHash s h).1 h = ((AddHash s h).1, false) := by
  by_cases hc : rank s.num_sharding_bits ((h % 2 ^ 64) >>> s.num_sharding_bits) >
      s.counters.getD ((h % 2 ^ 64) &&& s.bucket_mask) 0
  · have hbkt : (h % 2 ^ 64) &&& s.bucket_mask < s.counters.length := by
      rw [hmask, Nat.and_pow_two_sub_one_eq_mod, hlen]
      exact Nat.mod_lt _ (Nat.pos_pow_of_pos _ (by norm_num))
    have h1 : (AddHash s h).1 =
        { s with counters := (s.counters.set ((h % 2 ^ 64) &&& s.bucket_mask)
            (rank s.num_sharding_bits ((h % 2 ^ 64) >>> s.num_sharding_bits))) } := by
      rw [AddHash_eq, if_pos hc]
    have hcond2 : ¬(rank s.num_sharding_bits ((h % 2 ^ 64) >>> s.num_sharding_bits) >
        (s.counters.set ((h % 2 ^ 64) &&& s.bucket_mask)
          (rank s.num_sharding_bits ((h % 2 ^ 64) >>> s.num_sharding_bits))).getD
          ((h % 2 ^ 64) &&& s.bucket_mask) 0) := by
      rw [getD_set_eq, if_pos ⟨rfl, hbkt⟩]
      exact lt_irrefl _
    rw [h1, AddHash_eq, if_neg hcond2]
  · have h1 : AddHash s h = (s, false) := by rw [AddHash_eq, if_neg hc]
    rw [h1]
    show AddHash s h = (s, false)
    exact h1

theorem leadingZeros_lt (w n : ℕ) (hn : n ≠ 0) (hlt : n < 2 ^ w) :
    leadingZeros w n < w := by
  induction w with
  | zero => simp at hlt; omega
  | succ w ih =>
    unfold leadingZeros
    by_cases ht : n.testBit w
    · rw [if_pos ht]; omega
    · rw [if_neg ht]
      have hn2 : n < 2 ^ w := by
        by_contra hge
        push_neg at hge
        have h2 : 2 ^ (w + 1) = 2 * 2 ^ w := by ring
        have hdiv : n / 2 ^ w = 1 :=
          Nat.div_eq_of_lt_le (by omega) (by omega)
        rw [Nat.testBit_to_div_mod, hdiv] at ht
        simp at ht
      have := ih hn2
      omega

theorem rank_le (b remaining : ℕ) (hlt : remaining < 2 ^ (64 - b)) :
    rank b remaining ≤ 64 - b := by
  unfold rank
  by_cases h0 : remaining = 0
  · rw [if_pos h0]
  · rw [if_neg h0]
    have := leadingZeros_lt (64 - b) remaining h0 hlt
    omega

theorem AddHash_WF (s : HyperLogLog) (h : ℕ) (hw : WF s) : WF (AddHash s h).1 := by
  obtain ⟨h4, h16, hnb, hbm, hal, hlen, hrange⟩ := hw
  rw [AddHash_eq]
  split
  · refine ⟨h4, h16, hnb, hbm, hal, by simpa using hlen, ?_⟩
    intro c hc
    rcases List.mem_or_eq_of_mem_set hc with hmem | hval
    · exact hrange c hmem
    · subst hval
      apply rank_le
      have hb64 : s.num_sharding_bits ≤ 64 := by omega
      have : (h % 2 ^ 64) < 2 ^ 64 := Nat.mod_lt _ (by norm_num)
      rw [Nat.shiftRight_eq_div_pow]
      rw [Nat.div_lt_iff_lt_mul (Nat.pos_pow_of_pos _ (by norm_num))]
      calc h % 2 ^ 64 < 2 ^ 64 := this
        _ = 2 ^ (64 - s.num_sharding_bits) * 2 ^ s.num_sharding_bits := by
            rw [← pow_add]
            congr 1
            omega
  · exact ⟨h4, h16, hnb, hbm, hal, hlen, hrange⟩

theorem runAdds_WF (s : HyperLogLog) (hashes : List ℕ) (hw : WF s) :
    WF (runAdds s hashes) := by
  induction hashes generalizing s with
  | nil => exact hw
  | cons a t ih => exact ih _ (AddHash_WF s a hw)

theorem runAdds_fields (s : HyperLogLog) (hashes : List ℕ) :
    (runAdds s hashes).num_sharding_bits = s.num_sharding_bits ∧
    (runAdds s hashes).num_buckets = s.num_buckets ∧
    (runAdds s hashes).bucket_mask = s.bucket_mask ∧
    (runAdds s hashes).alpha_num_buckets2 = s.alpha_num_buckets2 := by
  induction hashes generalizing s with
  | nil => exact ⟨rfl, rfl, rfl, rfl⟩
  | cons a t ih =>
    have hstep := AddHash_frame s a
    have hrec := ih (AddHash s a).1
    exact ⟨hrec.1.trans hstep.1, hrec.2.1.trans hstep.2.1,
           hrec.2.2.1.trans hstep.2.2.1, hrec.2.2.2.trans hstep.2.2.2.1⟩

theorem AddHash_mono (s : HyperLogLog) (h i : ℕ) :
    s.counters.getD i 0 ≤ (AddHash s h).1.counters.getD i 0 := by
  rw [AddHash_eq]
  split
  · next hc =>
    simp only [getD_set_eq]
    split
    · next heq =>
      rw [← heq.1]
      omega
    · exact le_refl _
  · exact le_refl _

theorem runAdds_mono (s : HyperLogLog) (hashes : List ℕ) (i : ℕ) :
    s.counters.getD i 0 ≤ (runAdds s hashes).counters.getD i 0 := by
  induction hashes generalizing s with
  | nil => exact le_refl _
  | cons a t ih =>
    calc s.counters.getD i 0 ≤ (AddHash s a).1.counters.getD i 0 := AddHash_mono s a i
      _ ≤ (runAdds (AddHash s a).1 t).counters.getD i 0 := ih _

theorem construct_WF (b : ℤ) (s : HyperLogLog) (h : construct b = Except.ok s) :
    WF s ∧ s.counters = List.replicate s.num_buckets 0 := by
  unfold construct at h
  by_cases hc : 4 ≤ b ∧ b ≤ 16
  · rw [if_pos hc] at h
    injection h with h2
    subst h2
    refine ⟨⟨(by omega : 4 ≤ b.toNat), (by omega : b.toNat ≤ 16), rfl, rfl, rfl, by simp, ?_⟩, rfl⟩
    intro c hcm
    have hc0 := List.eq_of_mem_replicate hcm
    exact (by omega : c ≤ 64 - b.toNat)
  · rw [if_neg hc] at h
    exact absurd h (by simp)

/-- C6: for every constructed estimator and every sequence of `AddHash`
operations, `counters.length = num_buckets` holds, every counter stays in
`[0, 64 - b]`, each counter is monotonically non-decreasing as further
operations run, all counters start at 0, and `num_sharding_bits` never
changes. -/
theorem invariants_hold (b : ℤ) (s0 : HyperLogLog) (h0 : construct b = Except.ok s0)
    (hashes extra : List ℕ) :
    (runAdds s0 hashes).counters.length = (runAdds s0 hashes).num_buckets ∧
    (∀ c ∈ (runAdds s0 hashes).counters, c ≤ 64 - (runAdds s0 hashes).num_sharding_bits) ∧
    (∀ i, (runAdds s0 hashes).counters.getD i 0 ≤
       (runAdds s0 (hashes ++ extra)).counters.getD i 0) ∧
    (runAdds s0 hashes).num_sharding_bits = s0.num_sharding_bits ∧
    s0.counters = List.replicate s0.num_buckets 0 := by
  obtain ⟨hw0, hrep⟩ := construct_WF b s0 h0
  have hw := runAdds_WF s0 hashes hw0
  refine ⟨hw.2.2.2.2.2.1, hw.2.2.2.2.2.2, ?_, (runAdds_fields s0 hashes).1, hrep⟩
  intro i
  have happ : runAdds s0 (hashes ++ extra) = runAdds (runAdds s0 hashes) extra := by
    unfold runAdds
    rw [List.foldl_append]
  rw [happ]
  exact runAdds_mono _ extra i

theorem invariants_hold_w :
    construct 4 = Except.ok hll4 ∧
    ((runAdds hll4 [5]).counters.length = (runAdds hll4 [5]).num_buckets ∧
     (∀ c ∈ (runAdds hll4 [5]).counters,
        c ≤ 64 - (runAdds hll4 [5]).num_sharding_bits) ∧
     (∀ i, (runAdds hll4 [5]).counters.getD i 0 ≤
        (runAdds hll4 ([5] ++ [7])).counters.getD i 0) ∧
     (runAdds hll4 [5]).num_sharding_bits = hll4.num_sharding_bits ∧
     hll4.counters = List.replicate hll4.num_buckets 0) :=
  ⟨rfl, invariants_hold 4 hll4 rfl [5] [7]⟩

theorem addHash_idem_w :
    hll4.counters.length = 2 ^ hll4.num_sharding_bits ∧
    AddHash (AddHash hll4 7).1 7 = ((AddHash hll4 7).1, false) :=
  ⟨by norm_num [hll4], addHash_idem hll4 7 (by norm_num [hll4]) rfl⟩

end HLL
